import Mathlib

/-!
Verification of the estimation and scheduling engine of the
`thiago-illustration/estimator` CLI tool (src/index.ts).

The engine is shallowly embedded below:
* ratings are natural numbers (the collector validates integers 0–3);
* raw scores, weights and capacities are exact rationals;
* dates are modelled as integer day offsets (`today + n` days);
* the `breakdown` record (string-keyed object, insertion order) is
  modelled as an association list built in the same order.
-/

namespace Estimator

/-- Task/worker category (`type Category` in src/index.ts). -/
inductive Category where
  | Backend
  | Frontend
  | Design
deriving DecidableEq, Repr

/-- The eight scoring dimensions (keys of `EstimateFactors`, in
declaration order). -/
inductive Dimension where
  | uncertainty
  | complexity
  | testability
  | legacyImpact
  | integrationDifficulty
  | refactorEffort
  | dependencies
  | requirementVolatility
deriving DecidableEq, Repr

/-- All dimensions in the key order of the `EstimateFactors` record. -/
def Dimension.all : List Dimension :=
  [.uncertainty, .complexity, .testability, .legacyImpact,
   .integrationDifficulty, .refactorEffort, .dependencies, .requirementVolatility]

/-- A task rating: a value for each of the eight dimensions
(`type EstimateFactors` in src/index.ts; values are validated integers 0–3). -/
def EstimateFactors : Type := Dimension → ℕ

/-- The fixed factor weights (`const WEIGHTS` in src/index.ts). -/
def WEIGHTS : Dimension → ℚ
  | .uncertainty => 0.8
  | .complexity => 0.6
  | .testability => 0.4
  | .legacyImpact => 0.5
  | .integrationDifficulty => 0.7
  | .refactorEffort => 0.4
  | .dependencies => 0.5
  | .requirementVolatility => 0.4

/-- `const FIB_NUMS = [1, 2, 3, 5, 8]` in src/index.ts. -/
def FIB_NUMS : List ℕ := [1, 2, 3, 5, 8]

/-- The loop body of `roundUpToFib`: scan the list, return the first
element `f` with `n <= f`; fall through to `8`. -/
def roundUpToFibGo (n : ℚ) : List ℕ → ℕ
  | [] => 8
  | f :: fs => if n ≤ (f : ℚ) then f else roundUpToFibGo n fs

/-- `function roundUpToFib(n)` in src/index.ts: scan `FIB_NUMS` in order,
return the first member `>= n`, capping at 8. -/
def roundUpToFib (n : ℚ) : ℕ := roundUpToFibGo n FIB_NUMS

/-- The weighted raw score computed inside `function estimate`:
`Object.entries(factors).reduce((sum, [key, value]) => sum + value * WEIGHTS[key], 0)`. -/
def rawScore (factors : EstimateFactors) : ℚ :=
  Dimension.all.foldl (fun sum d => sum + (factors d : ℚ) * WEIGHTS d) 0

/-- The result record of `function estimate`. -/
structure EstimateResult where
  rawScore : ℚ
  fibonacciEstimate : ℕ
deriving DecidableEq, Repr

/-- `function estimate(factors)` in src/index.ts. -/
def estimate (factors : EstimateFactors) : EstimateResult :=
  { rawScore := rawScore factors
    fibonacciEstimate := roundUpToFib (rawScore factors) }

/-- `type Task` in src/index.ts. -/
structure Task where
  name : String
  category : Category
  assignedTo : String
  factors : EstimateFactors
  notes : Dimension → String
  rawScore : ℚ
  fibonacciEstimate : ℕ

/-- `type Developer` in src/index.ts. -/
structure Developer where
  id : String
  name : String
  role : Category
  capacity : ℚ

/-- The `pointToDaysMap` lookup of `calculateEpicEstimate`, together with
the `|| 0` default applied at the use site. -/
def pointToDaysMap (fib : ℕ) : ℚ :=
  if fib = 1 then 1
  else if fib = 2 then 1
  else if fib = 3 then 1.5
  else if fib = 5 then 2.5
  else if fib = 8 then 5
  else 0

/-- Result record of `calculateEpicEstimate`. -/
structure EpicEstimate where
  totalPoints : ℕ
  estimatedDays : ℚ
  estimatedDeliveryDate : ℤ
deriving DecidableEq, Repr

/-- `function calculateEpicEstimate(tasks)` in src/index.ts; `today` is the
current date as a day offset, and `setDate(getDate() + ceil(days))` is
modelled as integer addition of days. -/
def calculateEpicEstimate (tasks : List Task) (today : ℤ) : EpicEstimate :=
  let totalPoints := tasks.foldl (fun sum task => sum + task.fibonacciEstimate) 0
  let estimatedDays :=
    tasks.foldl (fun sum task => sum + pointToDaysMap task.fibonacciEstimate) 0
  { totalPoints := totalPoints
    estimatedDays := estimatedDays
    estimatedDeliveryDate := today + ⌈estimatedDays⌉ }

/-- One step of the `tasks.reduce` that groups tasks by `assignedTo` in
`calculateParallelEstimate`: push the task onto its key's list, creating
the key (at the end, i.e. in insertion order) if absent. -/
def groupStep (acc : List (String × List Task)) (task : Task) :
    List (String × List Task) :=
  if acc.any (fun p => p.1 = task.assignedTo) then
    acc.map (fun p => if p.1 = task.assignedTo then (p.1, p.2 ++ [task]) else p)
  else
    acc ++ [(task.assignedTo, [task])]

/-- The `tasksByDev` record of `calculateParallelEstimate`, as an
association list in key insertion order. -/
def tasksByDev (tasks : List Task) : List (String × List Task) :=
  tasks.foldl groupStep []

/-- `devTasks.reduce((sum, task) => sum + task.fibonacciEstimate, 0)`. -/
def devPoints (devTasks : List Task) : ℕ :=
  devTasks.foldl (fun sum task => sum + task.fibonacciEstimate) 0

/-- One entry of the `breakdown` record (`{ name; days; points }`). -/
structure DevEstimate where
  name : String
  days : ℤ
  points : ℕ
deriving DecidableEq, Repr

/-- Result record of `calculateParallelEstimate`. -/
structure ParallelEstimate where
  totalDays : ℤ
  deliveryDate : ℤ
  breakdown : List (String × DevEstimate)
deriving DecidableEq, Repr

/-- The body of the `Object.entries(tasksByDev).forEach` loop in
`calculateParallelEstimate`: skip the group if no developer matches its
key, otherwise append the `{ name, days, points }` entry and update the
running `maxDays`. -/
def devStep (developers : List Developer)
    (st : List (String × DevEstimate) × ℤ) (p : String × List Task) :
    List (String × DevEstimate) × ℤ :=
  match developers.find? (fun d => d.id = p.1) with
  | none => st
  | some dev =>
      let totalPoints := devPoints p.2
      let days : ℤ := ⌈(totalPoints : ℚ) / dev.capacity⌉
      (st.1 ++ [(p.1, { name := dev.name, days := days, points := totalPoints })],
       max st.2 days)

/-- `function calculateParallelEstimate(tasks, developers)` in src/index.ts. -/
def calculateParallelEstimate (tasks : List Task) (developers : List Developer)
    (today : ℤ) : ParallelEstimate :=
  let res := (tasksByDev tasks).foldl (devStep developers) ([], 0)
  { totalDays := res.2
    deliveryDate := today + res.2
    breakdown := res.1 }

/-! ## Basic facts about the scoring engine -/

/-- Closed form of the scan in `roundUpToFib`. -/
lemma roundUpToFib_piecewise (n : ℚ) :
    roundUpToFib n =
      if n ≤ 1 then 1 else if n ≤ 2 then 2 else if n ≤ 3 then 3
      else if n ≤ 5 then 5 else 8 := by
  simp only [roundUpToFib, FIB_NUMS, roundUpToFibGo]
  norm_num

/-- `roundUpToFib` always lands in the supported scale. -/
lemma roundUpToFib_mem (n : ℚ) : roundUpToFib n ∈ FIB_NUMS := by
  rw [roundUpToFib_piecewise]
  split_ifs <;> simp [FIB_NUMS]

/-- `roundUpToFib` never returns less than the scale floor 1. -/
lemma roundUpToFib_ge_one (n : ℚ) : 1 ≤ roundUpToFib n := by
  rw [roundUpToFib_piecewise]
  split_ifs <;> norm_num

/-- `roundUpToFib` is monotone. -/
lemma roundUpToFib_mono {a b : ℚ} (h : a ≤ b) :
    roundUpToFib a ≤ roundUpToFib b := by
  rw [roundUpToFib_piecewise, roundUpToFib_piecewise]
  split_ifs <;> norm_num <;> linarith

/-- Closed form of the weighted-sum reduce in `estimate`. -/
lemma rawScore_closed (f : EstimateFactors) :
    rawScore f =
      (f .uncertainty : ℚ) * 0.8 + (f .complexity : ℚ) * 0.6 +
      (f .testability : ℚ) * 0.4 + (f .legacyImpact : ℚ) * 0.5 +
      (f .integrationDifficulty : ℚ) * 0.7 + (f .refactorEffort : ℚ) * 0.4 +
      (f .dependencies : ℚ) * 0.5 + (f .requirementVolatility : ℚ) * 0.4 := by
  simp only [rawScore, Dimension.all, WEIGHTS, List.foldl_cons, List.foldl_nil]
  ring

/-- Folding `fun a t => a + g t` over a list is the initial value plus the
sum of the images. -/
lemma foldl_add_eq {M : Type} [AddCommMonoid M] (g : Task → M) :
    ∀ (l : List Task) (s : M),
      l.foldl (fun a t => a + g t) s = s + (l.map g).sum := by
  intro l
  induction l with
  | nil => simp
  | cons t l ih =>
      intro s
      simp only [List.foldl_cons, List.map_cons, List.sum_cons, ih, add_assoc]

/-! ## Claim theorems: scoring engine -/

/-- C1: `roundUpToFib` scans `{1,2,3,5,8}` in ascending order and returns
the first member `≥ n`, capping at 8 for inputs above 8; an input of 0
returns 1 and the result is always a member of `{1,2,3,5,8}`. -/
theorem roundUpToFib_spec (n : ℚ) :
    (roundUpToFib n =
      if n ≤ 1 then 1 else if n ≤ 2 then 2 else if n ≤ 3 then 3
      else if n ≤ 5 then 5 else 8) ∧
    roundUpToFib n ∈ FIB_NUMS ∧
    roundUpToFib 0 = 1 := by
  refine ⟨roundUpToFib_piecewise n, roundUpToFib_mem n, ?_⟩
  rw [roundUpToFib_piecewise]
  norm_num

/-- C2: for every rating with integer values in `[0,3]`, `estimate` returns
the raw score `Σ rating×weight` with the fixed weights 0.8, 0.6, 0.4, 0.5,
0.7, 0.4, 0.5, 0.4 and the Fibonacci estimate `roundUpToFib` of that sum. -/
theorem estimate_weighted_sum (f : EstimateFactors) (h : ∀ d, f d ≤ 3) :
    estimate f =
      { rawScore :=
          (f .uncertainty : ℚ) * 0.8 + (f .complexity : ℚ) * 0.6 +
          (f .testability : ℚ) * 0.4 + (f .legacyImpact : ℚ) * 0.5 +
          (f .integrationDifficulty : ℚ) * 0.7 + (f .refactorEffort : ℚ) * 0.4 +
          (f .dependencies : ℚ) * 0.5 + (f .requirementVolatility : ℚ) * 0.4
        fibonacciEstimate :=
          roundUpToFib
            ((f .uncertainty : ℚ) * 0.8 + (f .complexity : ℚ) * 0.6 +
             (f .testability : ℚ) * 0.4 + (f .legacyImpact : ℚ) * 0.5 +
             (f .integrationDifficulty : ℚ) * 0.7 + (f .refactorEffort : ℚ) * 0.4 +
             (f .dependencies : ℚ) * 0.5 + (f .requirementVolatility : ℚ) * 0.4) } := by
  simp [estimate, rawScore_closed]

/-- A rating of 1 on every dimension, used to instantiate theorems with
hypotheses at a concrete input. -/
def sampleFactors : EstimateFactors := fun _ => 1

/-- Witness for `estimate_weighted_sum` at the all-ones rating. -/
theorem estimate_weighted_sum_witness :
    (∀ d, sampleFactors d ≤ 3) ∧
    estimate sampleFactors =
      { rawScore :=
          (sampleFactors .uncertainty : ℚ) * 0.8 + (sampleFactors .complexity : ℚ) * 0.6 +
          (sampleFactors .testability : ℚ) * 0.4 + (sampleFactors .legacyImpact : ℚ) * 0.5 +
          (sampleFactors .integrationDifficulty : ℚ) * 0.7 +
          (sampleFactors .refactorEffort : ℚ) * 0.4 +
          (sampleFactors .dependencies : ℚ) * 0.5 +
          (sampleFactors .requirementVolatility : ℚ) * 0.4
        fibonacciEstimate :=
          roundUpToFib
            ((sampleFactors .uncertainty : ℚ) * 0.8 + (sampleFactors .complexity : ℚ) * 0.6 +
             (sampleFactors .testability : ℚ) * 0.4 + (sampleFactors .legacyImpact : ℚ) * 0.5 +
             (sampleFactors .integrationDifficulty : ℚ) * 0.7 +
             (sampleFactors .refactorEffort : ℚ) * 0.4 +
             (sampleFactors .dependencies : ℚ) * 0.5 +
             (sampleFactors .requirementVolatility : ℚ) * 0.4) } :=
  ⟨fun d => by norm_num [sampleFactors], estimate_weighted_sum sampleFactors (fun d => by norm_num [sampleFactors])⟩

/-- C6: raising a single dimension's rating (the others held fixed) never
decreases the raw score nor the Fibonacci effort unit. -/
theorem estimate_monotone (f : EstimateFactors) (d : Dimension) (v : ℕ)
    (hf : ∀ e, f e ≤ 3) (hv : v ≤ 3) (hle : f d ≤ v) :
    rawScore f ≤ rawScore (fun e => if e = d then v else f e) ∧
    (estimate f).fibonacciEstimate ≤
      (estimate (fun e => if e = d then v else f e)).fibonacciEstimate := by
  have hc : ((f d : ℚ)) ≤ (v : ℚ) := by exact_mod_cast hle
  have hw : 0 < WEIGHTS d := by cases d <;> norm_num [WEIGHTS]
  have key : rawScore (fun e => if e = d then v else f e)
      = rawScore f + WEIGHTS d * ((v : ℚ) - (f d : ℚ)) := by
    cases d <;> (simp [rawScore_closed, WEIGHTS]; try ring)
  have hraw : rawScore f ≤ rawScore (fun e => if e = d then v else f e) := by
    rw [key]
    nlinarith [mul_nonneg hw.le (by linarith : (0 : ℚ) ≤ (v : ℚ) - (f d : ℚ))]
  exact ⟨hraw, roundUpToFib_mono hraw⟩

/-- Witness for `estimate_monotone`: raise `uncertainty` from 1 to 2. -/
theorem estimate_monotone_witness :
    ((∀ e, sampleFactors e ≤ 3) ∧ 2 ≤ 3 ∧ sampleFactors .uncertainty ≤ 2) ∧
    (rawScore sampleFactors ≤
        rawScore (fun e => if e = Dimension.uncertainty then 2 else sampleFactors e) ∧
      (estimate sampleFactors).fibonacciEstimate ≤
        (estimate (fun e => if e = Dimension.uncertainty then 2
          else sampleFactors e)).fibonacciEstimate) :=
  ⟨⟨fun e => by norm_num [sampleFactors], by decide, by decide⟩,
    estimate_monotone sampleFactors Dimension.uncertainty 2
      (fun e => by norm_num [sampleFactors]) (by decide) (by decide)⟩

/-- C7: the all-zero rating scores 0 and floors at effort unit 1; the
all-three rating scores `3 × Σ weights = 12.9` and caps at effort unit 8. -/
theorem estimate_extremes :
    estimate (fun _ => 0) = { rawScore := 0, fibonacciEstimate := 1 } ∧
    (estimate (fun _ => 3)).rawScore = 3 * (Dimension.all.map WEIGHTS).sum ∧
    estimate (fun _ => 3) = { rawScore := 12.9, fibonacciEstimate := 8 } := by
  have h0 : rawScore (fun _ => 0) = 0 := by rw [rawScore_closed]; norm_num
  have h3 : rawScore (fun _ => 3) = 12.9 := by rw [rawScore_closed]; norm_num
  refine ⟨?_, ?_, ?_⟩
  · simp [estimate, h0, roundUpToFib_piecewise]
  · simp only [estimate]
    rw [h3]
    norm_num [Dimension.all, WEIGHTS]
  · simp [estimate, h3, roundUpToFib_piecewise]
    norm_num

/-! ## Sample data for instantiating theorems with hypotheses -/

/-- A concrete task assigned to developer `dev-1`. -/
def sampleTask : Task :=
  { name := "Login API", category := .Backend, assignedTo := "dev-1",
    factors := sampleFactors, notes := fun _ => "", rawScore := 4.3,
    fibonacciEstimate := 5 }

/-- A concrete task assigned to a developer id that matches no developer. -/
def orphanTask : Task :=
  { name := "Mystery", category := .Design, assignedTo := "dev-9",
    factors := sampleFactors, notes := fun _ => "", rawScore := 2.4,
    fibonacciEstimate := 3 }

/-- A concrete developer with id `dev-1` and capacity 4. -/
def sampleDev : Developer :=
  { id := "dev-1", name := "Alice", role := .Backend, capacity := 4 }

/-- A second concrete developer with id `dev-2` and capacity 2. -/
def otherDev : Developer :=
  { id := "dev-2", name := "Bob", role := .Frontend, capacity := 2 }

/-! ## Claim theorem: sequential aggregator -/

/-- C3: the sequential estimate sums effort units into `totalPoints`, sums
per-task durations from the table `{1↦1, 2↦1, 3↦1.5, 5↦2.5, 8↦5}` (0 days
for units outside the table) into `estimatedDays`, and the delivery date is
today plus the ceiling of `estimatedDays`. -/
theorem calculateEpicEstimate_spec (tasks : List Task) (today : ℤ) (u : ℕ)
    (hu : u ∉ FIB_NUMS) :
    (calculateEpicEstimate tasks today).totalPoints
        = (tasks.map (fun t => t.fibonacciEstimate)).sum ∧
    (calculateEpicEstimate tasks today).estimatedDays
        = (tasks.map (fun t => pointToDaysMap t.fibonacciEstimate)).sum ∧
    (calculateEpicEstimate tasks today).estimatedDeliveryDate
        = today + ⌈(calculateEpicEstimate tasks today).estimatedDays⌉ ∧
    pointToDaysMap 1 = 1 ∧ pointToDaysMap 2 = 1 ∧ pointToDaysMap 3 = 1.5 ∧
    pointToDaysMap 5 = 2.5 ∧ pointToDaysMap 8 = 5 ∧ pointToDaysMap u = 0 := by
  have hm : pointToDaysMap u = 0 := by
    simp only [FIB_NUMS, List.mem_cons, List.not_mem_nil, or_false, not_or] at hu
    simp [pointToDaysMap, hu.1, hu.2.1, hu.2.2.1, hu.2.2.2.1, hu.2.2.2.2]
  refine ⟨?_, ?_, rfl, by norm_num [pointToDaysMap], by norm_num [pointToDaysMap],
    by norm_num [pointToDaysMap], by norm_num [pointToDaysMap],
    by norm_num [pointToDaysMap], hm⟩
  · simp [calculateEpicEstimate, foldl_add_eq]
  · simp [calculateEpicEstimate, foldl_add_eq]

/-- Witness for `calculateEpicEstimate_spec` on two concrete tasks. -/
theorem calculateEpicEstimate_spec_witness :
    ((4 : ℕ) ∉ FIB_NUMS) ∧
    ((calculateEpicEstimate [sampleTask, orphanTask] 0).totalPoints
        = ([sampleTask, orphanTask].map (fun t => t.fibonacciEstimate)).sum ∧
    (calculateEpicEstimate [sampleTask, orphanTask] 0).estimatedDays
        = ([sampleTask, orphanTask].map (fun t => pointToDaysMap t.fibonacciEstimate)).sum ∧
    (calculateEpicEstimate [sampleTask, orphanTask] 0).estimatedDeliveryDate
        = 0 + ⌈(calculateEpicEstimate [sampleTask, orphanTask] 0).estimatedDays⌉ ∧
    pointToDaysMap 1 = 1 ∧ pointToDaysMap 2 = 1 ∧ pointToDaysMap 3 = 1.5 ∧
    pointToDaysMap 5 = 2.5 ∧ pointToDaysMap 8 = 5 ∧ pointToDaysMap 4 = 0) :=
  ⟨by decide, calculateEpicEstimate_spec [sampleTask, orphanTask] 0 4 (by decide)⟩

/-! ## The grouping of tasks by assigned developer -/

/-- One step of key collection: the set of keys of `tasksByDev` grows by a
task's `assignedTo` exactly when it is new, appended at the end. -/
def keyStep (ks : List String) (task : Task) : List String :=
  if task.assignedTo ∈ ks then ks else ks ++ [task.assignedTo]

/-- The keys of `tasksByDev tasks`, in insertion order. -/
def keysOf (tasks : List Task) : List String := tasks.foldl keyStep []

lemma mem_foldl_keyStep (l : List Task) :
    ∀ (ks : List String) (x : String),
      x ∈ l.foldl keyStep ks ↔ x ∈ ks ∨ ∃ t ∈ l, t.assignedTo = x := by
  induction l with
  | nil => simp
  | cons t l ih =>
      intro ks x
      simp only [List.foldl_cons, ih, keyStep]
      split_ifs with h <;> aesop

lemma nodup_foldl_keyStep (l : List Task) :
    ∀ ks : List String, ks.Nodup → (l.foldl keyStep ks).Nodup := by
  induction l with
  | nil => intro ks h; simpa using h
  | cons t l ih =>
      intro ks hks
      simp only [List.foldl_cons]
      apply ih
      unfold keyStep
      split_ifs with h
      · exact hks
      · simp [List.nodup_append, hks, h]

lemma keysOf_nodup (tasks : List Task) : (keysOf tasks).Nodup :=
  nodup_foldl_keyStep tasks [] (by simp)

lemma mem_keysOf (tasks : List Task) (x : String) :
    x ∈ keysOf tasks ↔ ∃ t ∈ tasks, t.assignedTo = x := by
  simpa using mem_foldl_keyStep tasks [] x

lemma keysOf_append_singleton (l : List Task) (t : Task) :
    keysOf (l ++ [t]) = keyStep (keysOf l) t := by
  simp [keysOf, List.foldl_append]

/-- Pushing one more task into the grouped form. -/
lemma groupStep_closed (l : List Task) (t : Task) :
    groupStep ((keysOf l).map (fun k => (k, l.filter (fun u => u.assignedTo = k)))) t
      = (keysOf (l ++ [t])).map
          (fun k => (k, (l ++ [t]).filter (fun u => u.assignedTo = k))) := by
  rw [keysOf_append_singleton]
  by_cases hmem : t.assignedTo ∈ keysOf l
  · have hany : ((keysOf l).map
        (fun k => (k, l.filter (fun u => u.assignedTo = k)))).any
          (fun p => p.1 = t.assignedTo) = true := by
      rw [List.any_eq_true]
      exact ⟨(t.assignedTo, l.filter (fun u => u.assignedTo = t.assignedTo)),
        List.mem_map.mpr ⟨t.assignedTo, hmem, rfl⟩, by simp⟩
    rw [groupStep, if_pos hany, keyStep, if_pos hmem, List.map_map]
    refine List.map_congr_left ?_
    intro k hk
    by_cases hkt : k = t.assignedTo
    · subst hkt
      simp [List.filter_append]
    · simp only [Function.comp_apply]
      rw [if_neg (by simpa using hkt)]
      simp only [List.filter_append]
      have hnil : [t].filter (fun u => decide (u.assignedTo = k)) = [] := by
        rw [List.filter_eq_nil_iff]
        intro u hu
        simp only [List.mem_singleton] at hu
        subst hu
        simp only [decide_eq_true_eq]
        exact fun h => hkt h.symm
      rw [hnil, List.append_nil]
  · have hany : ((keysOf l).map
        (fun k => (k, l.filter (fun u => u.assignedTo = k)))).any
          (fun p => p.1 = t.assignedTo) = false := by
      rw [List.any_eq_false]
      rintro p hp
      rcases List.mem_map.mp hp with ⟨k, hk, rfl⟩
      simp only [decide_eq_false_iff_not]
      intro h
      exact hmem (decide_eq_true_eq.mp h ▸ hk)
    rw [groupStep, if_neg (by simp [hany]), keyStep, if_neg hmem, List.map_append]
    congr 1
    · refine List.map_congr_left ?_
      intro k hk
      have hkt : k ≠ t.assignedTo := fun h => hmem (h ▸ hk)
      simp only [List.filter_append]
      have ht : [t].filter (fun u => decide (u.assignedTo = k)) = [] := by
        simp
        intro h
        exact absurd h.symm hkt
      simp [ht]
    · have hfl : l.filter (fun u => decide (u.assignedTo = t.assignedTo)) = [] := by
        rw [List.filter_eq_nil]
        intro u hu
        simp only [decide_eq_true_eq]
        intro h
        exact hmem ((mem_keysOf l t.assignedTo).mpr ⟨u, hu, h⟩)
      simp [List.filter_append, hfl]

/-- The grouped record of `calculateParallelEstimate` in closed form:
keys in insertion order, each with the sublist of tasks assigned to it. -/
lemma tasksByDev_closed (tasks : List Task) :
    tasksByDev tasks
      = (keysOf tasks).map (fun k => (k, tasks.filter (fun u => u.assignedTo = k))) := by
  induction tasks using List.reverseRecOn with
  | nil => rfl
  | append_singleton l t ih =>
      have h1 : tasksByDev (l ++ [t]) = groupStep (tasksByDev l) t := by
        simp [tasksByDev, List.foldl_append]
      rw [h1, ih, groupStep_closed]

/-! ## The per-developer breakdown in closed form -/

/-- The breakdown entry a single group of `tasksByDev` contributes:
`none` when the group's key matches no developer. -/
def entryOfGroup (developers : List Developer) (p : String × List Task) :
    Option (String × DevEstimate) :=
  match developers.find? (fun d => d.id = p.1) with
  | none => none
  | some dev =>
      some (p.1, { name := dev.name,
                   days := ⌈(devPoints p.2 : ℚ) / dev.capacity⌉,
                   points := devPoints p.2 })

lemma devStep_eq_entry (developers : List Developer)
    (st : List (String × DevEstimate) × ℤ) (p : String × List Task) :
    devStep developers st p =
      match entryOfGroup developers p with
      | none => st
      | some e => (st.1 ++ [e], max st.2 e.2.days) := by
  unfold devStep entryOfGroup
  cases developers.find? (fun d => d.id = p.1) <;> rfl

lemma foldl_devStep_closed (developers : List Developer) :
    ∀ (groups : List (String × List Task)) (acc : List (String × DevEstimate)) (m : ℤ),
      groups.foldl (devStep developers) (acc, m)
        = (acc ++ groups.filterMap (entryOfGroup developers),
           (groups.filterMap (entryOfGroup developers)).foldl
             (fun m' e => max m' e.2.days) m) := by
  intro groups
  induction groups with
  | nil => intro acc m; simp
  | cons p groups ih =>
      intro acc m
      rw [List.foldl_cons, devStep_eq_entry]
      cases h : entryOfGroup developers p with
      | none => rw [List.filterMap_cons_none h]; exact ih acc m
      | some e =>
          rw [List.filterMap_cons_some h]
          rw [ih (acc ++ [e]) (max m e.2.days)]
          simp [List.append_assoc]

/-- The breakdown entry for one key, with the group expanded to the filter
of the full task list. -/
def keyEntry (tasks : List Task) (developers : List Developer) (k : String) :
    Option (String × DevEstimate) :=
  entryOfGroup developers (k, tasks.filter (fun u => u.assignedTo = k))

/-- `calculateParallelEstimate` in closed form: the breakdown is the keys
of the grouping, in insertion order, mapped through `keyEntry`; the total
days is a running maximum (from 0) of the entries' days. -/
lemma calculateParallelEstimate_eq (tasks : List Task)
    (developers : List Developer) (today : ℤ) :
    calculateParallelEstimate tasks developers today =
      { breakdown := (keysOf tasks).filterMap (keyEntry tasks developers)
        totalDays := ((keysOf tasks).filterMap (keyEntry tasks developers)).foldl
          (fun m e => max m e.2.days) 0
        deliveryDate := today + ((keysOf tasks).filterMap (keyEntry tasks developers)).foldl
          (fun m e => max m e.2.days) 0 } := by
  have hb : (tasksByDev tasks).filterMap (entryOfGroup developers)
      = (keysOf tasks).filterMap (keyEntry tasks developers) := by
    rw [tasksByDev_closed, List.filterMap_map]
    rfl
  unfold calculateParallelEstimate
  rw [foldl_devStep_closed developers (tasksByDev tasks) [] 0]
  simp only [List.nil_append, hb]

lemma keyEntry_fst {tasks : List Task} {developers : List Developer}
    {k : String} {p : String × DevEstimate}
    (h : keyEntry tasks developers k = some p) : p.1 = k := by
  unfold keyEntry entryOfGroup at h
  cases hf : developers.find? (fun d => d.id = k) <;> rw [hf] at h
  · exact absurd h (by simp)
  · simp only [Option.some.injEq] at h
    rw [← h]

lemma mem_breakdown_iff {tasks : List Task} {developers : List Developer}
    {today : ℤ} {p : String × DevEstimate} :
    p ∈ (calculateParallelEstimate tasks developers today).breakdown ↔
      p.1 ∈ keysOf tasks ∧ keyEntry tasks developers p.1 = some p := by
  rw [calculateParallelEstimate_eq, List.mem_filterMap]
  constructor
  · rintro ⟨k, hk, he⟩
    have hfst := keyEntry_fst he
    subst hfst
    exact ⟨hk, he⟩
  · rintro ⟨hk, he⟩
    exact ⟨p.1, hk, he⟩

/-- `devPoints` is the sum of the effort units of the group. -/
lemma devPoints_eq (l : List Task) :
    devPoints l = (l.map (fun t => t.fibonacciEstimate)).sum := by
  simp [devPoints, foldl_add_eq]

/-! ## Claim theorem: parallel scheduler -/

/-- C4: with positive capacities, every developer with at least one
assigned matching task gets a breakdown entry; every entry's points are
the sum of the effort units of the tasks assigned to its key, its days are
the ceiling of points over the matched developer's capacity; the total
days is the running maximum (from 0) of the entries' days and the delivery
date is today plus the total days. -/
theorem calculateParallelEstimate_spec (tasks : List Task)
    (developers : List Developer) (today : ℤ)
    (hcap : ∀ d ∈ developers, 0 < d.capacity) :
    (∀ d ∈ developers, (∃ t ∈ tasks, t.assignedTo = d.id) →
      ∃ e : DevEstimate,
        (d.id, e) ∈ (calculateParallelEstimate tasks developers today).breakdown) ∧
    (∀ p ∈ (calculateParallelEstimate tasks developers today).breakdown,
      ∃ dev : Developer,
        developers.find? (fun d => d.id = p.1) = some dev ∧
        p.2.points
          = ((tasks.filter (fun t => t.assignedTo = p.1)).map
              (fun t => t.fibonacciEstimate)).sum ∧
        p.2.days = ⌈(p.2.points : ℚ) / dev.capacity⌉ ∧
        p.2.name = dev.name) ∧
    (calculateParallelEstimate tasks developers today).totalDays
      = ((calculateParallelEstimate tasks developers today).breakdown.map
          (fun p => p.2.days)).foldl max 0 ∧
    (calculateParallelEstimate tasks developers today).deliveryDate
      = today + (calculateParallelEstimate tasks developers today).totalDays := by
  refine ⟨?_, ?_, ?_, ?_⟩
  · intro d hd ⟨t, ht, hta⟩
    have hk : d.id ∈ keysOf tasks := (mem_keysOf tasks d.id).mpr ⟨t, ht, hta⟩
    have hsome : (developers.find? (fun x => x.id = d.id)).isSome :=
      List.find?_isSome.mpr ⟨d, hd, by simp⟩
    rcases Option.isSome_iff_exists.mp hsome with ⟨dev, hdev⟩
    refine ⟨{ name := dev.name,
              days := ⌈(devPoints (tasks.filter (fun u => u.assignedTo = d.id)) : ℚ)
                / dev.capacity⌉,
              points := devPoints (tasks.filter (fun u => u.assignedTo = d.id)) }, ?_⟩
    rw [mem_breakdown_iff]
    refine ⟨hk, ?_⟩
    unfold keyEntry entryOfGroup
    rw [hdev]
  · intro p hp
    rcases mem_breakdown_iff.mp hp with ⟨hk, he⟩
    unfold keyEntry entryOfGroup at he
    cases hf : developers.find? (fun d => d.id = p.1) <;> rw [hf] at he
    · exact absurd he (by simp)
    · rename_i dev
      simp only [Option.some.injEq] at he
      refine ⟨dev, rfl, ?_, ?_, ?_⟩ <;> rw [← he] <;> simp [devPoints_eq]
  · rw [calculateParallelEstimate_eq]
    simp only [List.foldl_map]
  · rw [calculateParallelEstimate_eq]

/-- Witness for `calculateParallelEstimate_spec` on one task and two
developers with positive capacities. -/
theorem calculateParallelEstimate_spec_witness :
    (∀ d ∈ [sampleDev, otherDev], 0 < d.capacity) ∧
    ((∀ d ∈ [sampleDev, otherDev], (∃ t ∈ [sampleTask], t.assignedTo = d.id) →
      ∃ e : DevEstimate,
        (d.id, e) ∈ (calculateParallelEstimate [sampleTask] [sampleDev, otherDev] 0).breakdown) ∧
    (∀ p ∈ (calculateParallelEstimate [sampleTask] [sampleDev, otherDev] 0).breakdown,
      ∃ dev : Developer,
        [sampleDev, otherDev].find? (fun d => d.id = p.1) = some dev ∧
        p.2.points
          = (([sampleTask].filter (fun t => t.assignedTo = p.1)).map
              (fun t => t.fibonacciEstimate)).sum ∧
        p.2.days = ⌈(p.2.points : ℚ) / dev.capacity⌉ ∧
        p.2.name = dev.name) ∧
    (calculateParallelEstimate [sampleTask] [sampleDev, otherDev] 0).totalDays
      = ((calculateParallelEstimate [sampleTask] [sampleDev, otherDev] 0).breakdown.map
          (fun p => p.2.days)).foldl max 0 ∧
    (calculateParallelEstimate [sampleTask] [sampleDev, otherDev] 0).deliveryDate
      = 0 + (calculateParallelEstimate [sampleTask] [sampleDev, otherDev] 0).totalDays) := by
  have hcap : ∀ d ∈ [sampleDev, otherDev], 0 < d.capacity := by
    intro d hd
    rcases List.mem_cons.mp hd with rfl | hd
    · norm_num [sampleDev]
    · rcases List.mem_cons.mp hd with rfl | hd
      · norm_num [otherDev]
      · exact absurd hd (List.not_mem_nil d)
  exact ⟨hcap, calculateParallelEstimate_spec [sampleTask] [sampleDev, otherDev] 0 hcap⟩

/-! ## Exclusion of tasks assigned to unknown developers -/

lemma keys_filter_congr (K : String) :
    ∀ (ys : List Task) (ks1 ks2 : List String),
      ks1.filter (fun k => k ≠ K) = ks2.filter (fun k => k ≠ K) →
      (ys.foldl keyStep ks1).filter (fun k => k ≠ K)
        = (ys.foldl keyStep ks2).filter (fun k => k ≠ K) := by
  intro ys
  induction ys with
  | nil => intro ks1 ks2 h; simpa using h
  | cons u ys ih =>
      intro ks1 ks2 h
      simp only [List.foldl_cons]
      apply ih
      by_cases hu : u.assignedTo = K
      · have e1 : ∀ ks : List String,
            (keyStep ks u).filter (fun k => k ≠ K) = ks.filter (fun k => k ≠ K) := by
          intro ks
          unfold keyStep
          split_ifs
          · rfl
          · rw [List.filter_append]
            simp [hu]
        rw [e1, e1]
        exact h
      · have hmemiff : u.assignedTo ∈ ks1 ↔ u.assignedTo ∈ ks2 := by
          constructor <;> intro hm
          · have hx : u.assignedTo ∈ ks1.filter (fun k => k ≠ K) :=
              List.mem_filter.mpr ⟨hm, by simp [hu]⟩
            rw [h] at hx
            exact (List.mem_filter.mp hx).1
          · have hx : u.assignedTo ∈ ks2.filter (fun k => k ≠ K) :=
              List.mem_filter.mpr ⟨hm, by simp [hu]⟩
            rw [← h] at hx
            exact (List.mem_filter.mp hx).1
        unfold keyStep
        by_cases hm : u.assignedTo ∈ ks1
        · rw [if_pos hm, if_pos (hmemiff.mp hm)]
          exact h
        · rw [if_neg hm, if_neg (fun c => hm (hmemiff.mpr c))]
          rw [List.filter_append, List.filter_append, h]

/-- Dropping a task from the middle of the list does not change the keys
other than possibly the dropped task's own key. -/
lemma keysOf_erase_middle (tasks1 tasks2 : List Task) (t : Task) :
    (keysOf (tasks1 ++ t :: tasks2)).filter (fun k => k ≠ t.assignedTo)
      = (keysOf (tasks1 ++ tasks2)).filter (fun k => k ≠ t.assignedTo) := by
  unfold keysOf
  rw [List.foldl_append, List.foldl_append, List.foldl_cons]
  apply keys_filter_congr
  unfold keyStep
  split_ifs
  · rfl
  · rw [List.filter_append]
    simp

lemma filterMap_filter_of_none {α β : Type} (f : α → Option β) (q : α → Bool)
    (hf : ∀ a, q a = false → f a = none) :
    ∀ l : List α, l.filterMap f = (l.filter q).filterMap f := by
  intro l
  induction l with
  | nil => rfl
  | cons a l ih =>
      cases hq : q a
      · rw [List.filter_cons, if_neg (by simp [hq]),
          List.filterMap_cons_none (hf a hq), ih]
      · rw [List.filter_cons, if_pos (by simp [hq]), List.filterMap_cons,
          List.filterMap_cons, ih]

/-- Filtering for a key other than the dropped task's key gives the same
group with or without the dropped task. -/
lemma filter_erase_middle (tasks1 tasks2 : List Task) (t : Task) (k : String)
    (hk : k ≠ t.assignedTo) :
    (tasks1 ++ t :: tasks2).filter (fun u => u.assignedTo = k)
      = (tasks1 ++ tasks2).filter (fun u => u.assignedTo = k) := by
  rw [List.filter_append, List.filter_append, List.filter_cons,
    if_neg (by simp; exact fun c => hk c.symm)]

/-! ## Claim theorem: silent exclusion of unassignable tasks -/

/-- C5: a task whose assigned worker id matches no developer is silently
dropped: the parallel estimate of the list with the task is identical to
the parallel estimate of the list without it. -/
theorem parallel_excludes_unmatched (tasks1 tasks2 : List Task) (t : Task)
    (developers : List Developer) (today : ℤ)
    (h : ∀ d ∈ developers, d.id ≠ t.assignedTo) :
    calculateParallelEstimate (tasks1 ++ t :: tasks2) developers today
      = calculateParallelEstimate (tasks1 ++ tasks2) developers today := by
  have hfind : developers.find? (fun d => d.id = t.assignedTo) = none := by
    rw [List.find?_eq_none]
    intro d hd
    simp only [decide_eq_true_eq]
    exact h d hd
  have hnone : ∀ (tasks : List Task) (k : String),
      (fun k => decide (k ≠ t.assignedTo)) k = false →
        keyEntry tasks developers k = none := by
    intro tasks k hk
    simp only [decide_eq_false_iff_not, not_not] at hk
    subst hk
    unfold keyEntry entryOfGroup
    rw [hfind]
  have hcong : ∀ k ∈ (keysOf (tasks1 ++ tasks2)).filter (fun k => k ≠ t.assignedTo),
      keyEntry (tasks1 ++ t :: tasks2) developers k
        = keyEntry (tasks1 ++ tasks2) developers k := by
    intro k hk
    have hkt : k ≠ t.assignedTo := by
      have := (List.mem_filter.mp hk).2
      simpa using this
    unfold keyEntry
    rw [filter_erase_middle tasks1 tasks2 t k hkt]
  have hb : (keysOf (tasks1 ++ t :: tasks2)).filterMap
        (keyEntry (tasks1 ++ t :: tasks2) developers)
      = (keysOf (tasks1 ++ tasks2)).filterMap
        (keyEntry (tasks1 ++ tasks2) developers) := by
    rw [filterMap_filter_of_none (keyEntry (tasks1 ++ t :: tasks2) developers)
        (fun k => k ≠ t.assignedTo) (hnone _) (keysOf (tasks1 ++ t :: tasks2)),
      filterMap_filter_of_none (keyEntry (tasks1 ++ tasks2) developers)
        (fun k => k ≠ t.assignedTo) (hnone _) (keysOf (tasks1 ++ tasks2)),
      keysOf_erase_middle]
    exact List.filterMap_congr hcong
  rw [calculateParallelEstimate_eq, calculateParallelEstimate_eq, hb]

/-- Witness for `parallel_excludes_unmatched`: dropping `orphanTask`
(assigned to the unknown id `dev-9`) leaves the estimate unchanged. -/
theorem parallel_excludes_unmatched_witness :
    (∀ d ∈ [sampleDev, otherDev], d.id ≠ orphanTask.assignedTo) ∧
    calculateParallelEstimate ([sampleTask] ++ orphanTask :: []) [sampleDev, otherDev] 0
      = calculateParallelEstimate ([sampleTask] ++ []) [sampleDev, otherDev] 0 := by
  have h : ∀ d ∈ [sampleDev, otherDev], d.id ≠ orphanTask.assignedTo := by
    intro d hd
    rcases List.mem_cons.mp hd with rfl | hd
    · decide
    · rcases List.mem_cons.mp hd with rfl | hd
      · decide
      · exact absurd hd (List.not_mem_nil d)
  exact ⟨h, parallel_excludes_unmatched [sampleTask] [] orphanTask [sampleDev, otherDev] 0 h⟩

/-! ## Invariance under reordering of tasks and developers -/

/-- With pairwise-distinct developer ids (the data-model invariant; the
collector generates unique `dev-<n>` ids), `find?` by id is invariant
under reordering the developer list. -/
lemma find?_id_perm {devs devs' : List Developer} (h : devs.Perm devs')
    (hids : (devs.map (fun d => d.id)).Nodup) (k : String) :
    devs.find? (fun d => d.id = k) = devs'.find? (fun d => d.id = k) := by
  cases h1 : devs.find? (fun d => d.id = k) with
  | none =>
      rw [List.find?_eq_none] at h1
      symm
      rw [List.find?_eq_none]
      intro x hx
      exact h1 x (h.symm.subset hx)
  | some d =>
      have hd : d ∈ devs := List.mem_of_find?_eq_some h1
      have hpd := List.find?_some h1
      cases h2 : devs'.find? (fun d => d.id = k) with
      | none =>
          rw [List.find?_eq_none] at h2
          exact absurd hpd (by simpa using h2 d (h.subset hd))
      | some d' =>
          have hd' : d' ∈ devs := h.symm.subset (List.mem_of_find?_eq_some h2)
          have hpd' := List.find?_some h2
          simp only [decide_eq_true_eq] at hpd hpd'
          have hdd : d = d' :=
            List.inj_on_of_nodup_map hids hd hd' (by rw [hpd, hpd'])
          rw [hdd]

lemma keyEntry_perm {tasks tasks' : List Task} {devs devs' : List Developer}
    (ht : tasks.Perm tasks') (hd : devs.Perm devs')
    (hids : (devs.map (fun d => d.id)).Nodup) (k : String) :
    keyEntry tasks devs k = keyEntry tasks' devs' k := by
  unfold keyEntry entryOfGroup
  rw [find?_id_perm hd hids k]
  have hpts : devPoints (tasks.filter (fun u => u.assignedTo = k))
      = devPoints (tasks'.filter (fun u => u.assignedTo = k)) := by
    rw [devPoints_eq, devPoints_eq]
    exact ((ht.filter _).map _).sum_eq
  cases devs'.find? (fun d => d.id = k) <;> simp [hpts]

lemma map_fst_filterMap_sublist {β : Type} (f : String → Option (String × β))
    (hf : ∀ k p, f k = some p → p.1 = k) :
    ∀ ks : List String, List.Sublist ((ks.filterMap f).map (fun p => p.1)) ks := by
  intro ks
  induction ks with
  | nil => simp
  | cons k ks ih =>
      cases hx : f k with
      | none =>
          rw [List.filterMap_cons_none hx]
          exact ih.cons k
      | some p =>
          rw [List.filterMap_cons_some hx, List.map_cons, hf k p hx]
          exact ih.cons₂ k

lemma breakdown_nodup (tasks : List Task) (developers : List Developer)
    (today : ℤ) :
    ((calculateParallelEstimate tasks developers today).breakdown).Nodup := by
  have hsub := map_fst_filterMap_sublist (keyEntry tasks developers)
    (fun k p h => keyEntry_fst h) (keysOf tasks)
  have hfst : (((keysOf tasks).filterMap (keyEntry tasks developers)).map
      (fun p => p.1)).Nodup := (keysOf_nodup tasks).sublist hsub
  have hnd := hfst.of_map
  rw [calculateParallelEstimate_eq]
  exact hnd

lemma totalDays_eq_foldl (tasks : List Task) (developers : List Developer)
    (today : ℤ) :
    (calculateParallelEstimate tasks developers today).totalDays
      = (calculateParallelEstimate tasks developers today).breakdown.foldl
          (fun m e => max m e.2.days) 0 := by
  rw [calculateParallelEstimate_eq]

lemma foldl_maxdays_perm {l₁ l₂ : List (String × DevEstimate)}
    (h : l₁.Perm l₂) :
    ∀ a : ℤ, l₁.foldl (fun m e => max m e.2.days) a
      = l₂.foldl (fun m e => max m e.2.days) a := by
  induction h with
  | nil => intro a; rfl
  | cons x h ih => intro a; simp only [List.foldl_cons, ih]
  | swap x y l => intro a; simp only [List.foldl_cons]; rw [sup_right_comm]
  | trans h1 h2 ih1 ih2 => intro a; rw [ih1, ih2]

/-! ## Claim theorem: order independence -/

/-- C8: permuting the task list leaves the sequential totals unchanged,
and permuting the task or developer list (developer ids being unique, as
the data model requires) leaves the parallel total days and the breakdown
entries unchanged, up to iteration order. -/
theorem estimates_perm_invariant (tasks tasks' : List Task)
    (developers developers' : List Developer) (today : ℤ)
    (ht : tasks.Perm tasks') (hd : developers.Perm developers')
    (hids : (developers.map (fun d => d.id)).Nodup) :
    (calculateEpicEstimate tasks today).totalPoints
      = (calculateEpicEstimate tasks' today).totalPoints ∧
    (calculateEpicEstimate tasks today).estimatedDays
      = (calculateEpicEstimate tasks' today).estimatedDays ∧
    (calculateParallelEstimate tasks developers today).totalDays
      = (calculateParallelEstimate tasks' developers' today).totalDays ∧
    ∀ p : String × DevEstimate,
      p ∈ (calculateParallelEstimate tasks developers today).breakdown ↔
        p ∈ (calculateParallelEstimate tasks' developers' today).breakdown := by
  have hmemiff : ∀ p : String × DevEstimate,
      p ∈ (calculateParallelEstimate tasks developers today).breakdown ↔
        p ∈ (calculateParallelEstimate tasks' developers' today).breakdown := by
    intro p
    rw [mem_breakdown_iff, mem_breakdown_iff]
    have hkeys : p.1 ∈ keysOf tasks ↔ p.1 ∈ keysOf tasks' := by
      rw [mem_keysOf, mem_keysOf]
      constructor
      · rintro ⟨t, ht', hta⟩
        exact ⟨t, ht.subset ht', hta⟩
      · rintro ⟨t, ht', hta⟩
        exact ⟨t, ht.symm.subset ht', hta⟩
    rw [hkeys, keyEntry_perm ht hd hids]
  have hperm : ((calculateParallelEstimate tasks developers today).breakdown).Perm
      ((calculateParallelEstimate tasks' developers' today).breakdown) :=
    (List.perm_ext_iff_of_nodup (breakdown_nodup tasks developers today)
      (breakdown_nodup tasks' developers' today)).mpr hmemiff
  refine ⟨?_, ?_, ?_, hmemiff⟩
  · simp only [calculateEpicEstimate, foldl_add_eq, zero_add]
    exact (ht.map _).sum_eq
  · simp only [calculateEpicEstimate, foldl_add_eq, zero_add]
    exact (ht.map _).sum_eq
  · rw [totalDays_eq_foldl, totalDays_eq_foldl]
    exact foldl_maxdays_perm hperm 0

/-- Witness for `estimates_perm_invariant`: swap two tasks and two
developers. -/
theorem estimates_perm_invariant_witness :
    (([sampleTask, orphanTask] : List Task).Perm [orphanTask, sampleTask] ∧
     ([sampleDev, otherDev] : List Developer).Perm [otherDev, sampleDev] ∧
     (([sampleDev, otherDev] : List Developer).map (fun d => d.id)).Nodup) ∧
    ((calculateEpicEstimate [sampleTask, orphanTask] 0).totalPoints
      = (calculateEpicEstimate [orphanTask, sampleTask] 0).totalPoints ∧
    (calculateEpicEstimate [sampleTask, orphanTask] 0).estimatedDays
      = (calculateEpicEstimate [orphanTask, sampleTask] 0).estimatedDays ∧
    (calculateParallelEstimate [sampleTask, orphanTask] [sampleDev, otherDev] 0).totalDays
      = (calculateParallelEstimate [orphanTask, sampleTask] [otherDev, sampleDev] 0).totalDays ∧
    ∀ p : String × DevEstimate,
      p ∈ (calculateParallelEstimate [sampleTask, orphanTask] [sampleDev, otherDev] 0).breakdown ↔
        p ∈ (calculateParallelEstimate [orphanTask, sampleTask] [otherDev, sampleDev] 0).breakdown) :=
  ⟨⟨List.Perm.swap orphanTask sampleTask [], List.Perm.swap otherDev sampleDev [],
    by decide⟩,
    estimates_perm_invariant [sampleTask, orphanTask] [orphanTask, sampleTask]
      [sampleDev, otherDev] [otherDev, sampleDev] 0
      (List.Perm.swap orphanTask sampleTask [])
      (List.Perm.swap otherDev sampleDev []) (by decide)⟩

/-! ## Conservation of points between the two estimates -/

/-- Total effort units of a task list. -/
def sumFib (l : List Task) : ℕ := (l.map (fun t => t.fibonacciEstimate)).sum

lemma sumFib_filter_le (p : Task → Bool) (l : List Task) :
    sumFib (l.filter p) ≤ sumFib l := by
  induction l with
  | nil => simp [sumFib]
  | cons t l ih =>
      rw [List.filter_cons]
      split_ifs
      · simp only [sumFib, List.map_cons, List.sum_cons] at ih ⊢
        omega
      · simp only [sumFib, List.map_cons, List.sum_cons] at ih ⊢
        omega

lemma sumFib_filter_eq_iff (p : Task → Bool) (l : List Task)
    (hpos : ∀ t ∈ l, 1 ≤ t.fibonacciEstimate) :
    sumFib (l.filter p) = sumFib l ↔ ∀ t ∈ l, p t = true := by
  induction l with
  | nil => simp [sumFib]
  | cons t l ih =>
      have hident := ih (fun u hu => hpos u (List.mem_cons_of_mem t hu))
      rw [List.filter_cons]
      split_ifs with hpt
      · simp only [sumFib, List.map_cons, List.sum_cons] at hident ⊢
        constructor
        · intro h u hu
          rcases List.mem_cons.mp hu with rfl | hu
          · exact hpt
          · exact hident.mp (by omega) u hu
        · intro h
          have := hident.mpr (fun u hu => h u (List.mem_cons_of_mem t hu))
          omega
      · have hle := sumFib_filter_le p l
        have h1 : 1 ≤ t.fibonacciEstimate := hpos t (List.mem_cons_self t l)
        simp only [sumFib, List.map_cons, List.sum_cons] at hle ⊢
        constructor
        · intro h
          exfalso
          omega
        · intro h
          exact absurd (h t (List.mem_cons_self t l)) (by simp [hpt])

lemma sumFib_filter_or (p q : Task → Bool) (l : List Task)
    (hdis : ∀ t, ¬(p t = true ∧ q t = true)) :
    sumFib (l.filter (fun t => p t || q t))
      = sumFib (l.filter p) + sumFib (l.filter q) := by
  induction l with
  | nil => simp [sumFib]
  | cons t l ih =>
      rw [List.filter_cons, List.filter_cons, List.filter_cons]
      cases hpt : p t <;> cases hqt : q t
      · simpa [hpt, hqt] using ih
      · simp only [hpt, hqt, Bool.false_or, if_pos, if_neg, Bool.false_eq_true,
          not_false_eq_true, sumFib, List.map_cons, List.sum_cons]
        simp only [sumFib] at ih
        omega
      · simp only [hpt, hqt, Bool.or_false, if_pos, if_neg, Bool.false_eq_true,
          not_false_eq_true, sumFib, List.map_cons, List.sum_cons]
        simp only [sumFib] at ih
        omega
      · exact absurd ⟨hpt, hqt⟩ (hdis t)

/-- Summing group sums over distinct keys is summing over the union of
the groups. -/
lemma sum_groups_eq (tasks : List Task) :
    ∀ ks : List String, ks.Nodup →
      (ks.map (fun k => sumFib (tasks.filter (fun u => u.assignedTo = k)))).sum
        = sumFib (tasks.filter (fun u => u.assignedTo ∈ ks)) := by
  intro ks
  induction ks with
  | nil =>
      intro _
      simp [sumFib]
  | cons k ks ih =>
      intro hnd
      rcases List.nodup_cons.mp hnd with ⟨hk, hnd'⟩
      have hdis : ∀ t : Task,
          ¬((decide (t.assignedTo = k)) = true ∧ (decide (t.assignedTo ∈ ks)) = true) := by
        rintro t ⟨h1, h2⟩
        simp only [decide_eq_true_eq] at h1 h2
        exact hk (h1 ▸ h2)
      have hor := sumFib_filter_or (fun u => u.assignedTo = k)
        (fun u => u.assignedTo ∈ ks) tasks hdis
      simp only [List.map_cons, List.sum_cons, ih hnd']
      rw [← hor]
      congr 1
      apply List.filter_congr
      intro u _
      simp [List.mem_cons]

lemma any_id_eq_isSome (developers : List Developer) (k : String) :
    developers.any (fun d => d.id = k)
      = (developers.find? (fun d => d.id = k)).isSome := by
  cases hf : developers.find? (fun d => d.id = k) with
  | none =>
      rw [List.find?_eq_none] at hf
      simp only [Option.isSome_none]
      rw [List.any_eq_false]
      intro d hd
      exact hf d hd
  | some d =>
      simp only [Option.isSome_some]
      rw [List.any_eq_true]
      refine ⟨d, List.mem_of_find?_eq_some hf, ?_⟩
      have := List.find?_some hf
      simpa using this

/-- The sum of the points over the breakdown entries, in terms of the
groups that survive the developer lookup. -/
lemma sum_points_filterMap (tasks : List Task) (developers : List Developer) :
    ∀ ks : List String,
      ((ks.filterMap (keyEntry tasks developers)).map (fun p => p.2.points)).sum
        = ((ks.filter (fun k => (developers.find? (fun d => d.id = k)).isSome)).map
            (fun k => sumFib (tasks.filter (fun u => u.assignedTo = k)))).sum := by
  intro ks
  induction ks with
  | nil => rfl
  | cons k ks ih =>
      cases hf : developers.find? (fun d => d.id = k) with
      | none =>
          have hnone : keyEntry tasks developers k = none := by
            unfold keyEntry entryOfGroup
            rw [hf]
          rw [List.filterMap_cons_none hnone, List.filter_cons,
            if_neg (by simp [hf])]
          exact ih
      | some dev =>
          have hsome : keyEntry tasks developers k
              = some (k, DevEstimate.mk dev.name
                  (⌈(devPoints (tasks.filter (fun u => u.assignedTo = k)) : ℚ)
                    / dev.capacity⌉)
                  (devPoints (tasks.filter (fun u => u.assignedTo = k)))) := by
            unfold keyEntry entryOfGroup
            rw [hf]
          rw [List.filterMap_cons_some hsome, List.filter_cons,
            if_pos (by simp [hf])]
          simp only [List.map_cons, List.sum_cons, ih]
          congr 1
          simp [devPoints_eq, sumFib]

/-! ## Claim theorem: conservation of points -/

/-- C9: the breakdown's points add up to exactly the effort units of the
tasks whose assigned id matches some developer; this is at most the
sequential `totalPoints`, with equality exactly when every task's id
matches some developer (effort units being in the supported scale, as
guaranteed by the scoring engine). -/
theorem parallel_points_conservation (tasks : List Task)
    (developers : List Developer) (today : ℤ)
    (hfib : ∀ t ∈ tasks, t.fibonacciEstimate ∈ FIB_NUMS) :
    ((calculateParallelEstimate tasks developers today).breakdown.map
        (fun p => p.2.points)).sum
      = ((tasks.filter (fun t => developers.any (fun d => d.id = t.assignedTo))).map
          (fun t => t.fibonacciEstimate)).sum ∧
    ((calculateParallelEstimate tasks developers today).breakdown.map
        (fun p => p.2.points)).sum ≤ (calculateEpicEstimate tasks today).totalPoints ∧
    (((calculateParallelEstimate tasks developers today).breakdown.map
        (fun p => p.2.points)).sum = (calculateEpicEstimate tasks today).totalPoints ↔
      ∀ t ∈ tasks, developers.any (fun d => d.id = t.assignedTo) = true) := by
  have hbd : (calculateParallelEstimate tasks developers today).breakdown
      = (keysOf tasks).filterMap (keyEntry tasks developers) := by
    rw [calculateParallelEstimate_eq]
  have h1 : ((calculateParallelEstimate tasks developers today).breakdown.map
        (fun p => p.2.points)).sum
      = sumFib (tasks.filter (fun t => developers.any (fun d => d.id = t.assignedTo))) := by
    rw [hbd, sum_points_filterMap,
      sum_groups_eq tasks _ ((keysOf_nodup tasks).filter _)]
    congr 1
    apply List.filter_congr
    intro u hu
    have hk : u.assignedTo ∈ keysOf tasks :=
      (mem_keysOf tasks u.assignedTo).mpr ⟨u, hu, rfl⟩
    rw [any_id_eq_isSome]
    by_cases hs : (developers.find? (fun d => d.id = u.assignedTo)).isSome = true
    · simp [List.mem_filter, hk, hs]
    · simp only [Bool.not_eq_true] at hs
      simp [List.mem_filter, hs]
  have h2 : (calculateEpicEstimate tasks today).totalPoints = sumFib tasks := by
    simp [calculateEpicEstimate, foldl_add_eq, sumFib]
  have hpos : ∀ t ∈ tasks, 1 ≤ t.fibonacciEstimate := by
    intro t ht
    have hm := hfib t ht
    simp only [FIB_NUMS, List.mem_cons, List.not_mem_nil, or_false] at hm
    rcases hm with h | h | h | h | h <;> omega
  refine ⟨h1, ?_, ?_⟩
  · rw [h1, h2]
    exact sumFib_filter_le _ tasks
  · rw [h1, h2]
    exact sumFib_filter_eq_iff _ tasks hpos

/-- Witness for `parallel_points_conservation` on two tasks, one of them
assigned to an unknown developer id. -/
theorem parallel_points_conservation_witness :
    (∀ t ∈ [sampleTask, orphanTask], t.fibonacciEstimate ∈ FIB_NUMS) ∧
    (((calculateParallelEstimate [sampleTask, orphanTask] [sampleDev, otherDev] 0).breakdown.map
        (fun p => p.2.points)).sum
      = (([sampleTask, orphanTask].filter
            (fun t => [sampleDev, otherDev].any (fun d => d.id = t.assignedTo))).map
          (fun t => t.fibonacciEstimate)).sum ∧
    ((calculateParallelEstimate [sampleTask, orphanTask] [sampleDev, otherDev] 0).breakdown.map
        (fun p => p.2.points)).sum
      ≤ (calculateEpicEstimate [sampleTask, orphanTask] 0).totalPoints ∧
    (((calculateParallelEstimate [sampleTask, orphanTask] [sampleDev, otherDev] 0).breakdown.map
        (fun p => p.2.points)).sum = (calculateEpicEstimate [sampleTask, orphanTask] 0).totalPoints ↔
      ∀ t ∈ [sampleTask, orphanTask],
        [sampleDev, otherDev].any (fun d => d.id = t.assignedTo) = true)) := by
  have hfib : ∀ t ∈ [sampleTask, orphanTask], t.fibonacciEstimate ∈ FIB_NUMS := by
    intro t ht
    rcases List.mem_cons.mp ht with rfl | ht
    · decide
    · rcases List.mem_cons.mp ht with rfl | ht
      · decide
      · exact absurd ht (List.not_mem_nil t)
  exact ⟨hfib, parallel_points_conservation [sampleTask, orphanTask]
    [sampleDev, otherDev] 0 hfib⟩

/-! ## Claim theorem: positivity of the breakdown -/

lemma foldl_maxdays_le_init :
    ∀ (l : List (String × DevEstimate)) (a : ℤ),
      a ≤ l.foldl (fun m e => max m e.2.days) a := by
  intro l
  induction l with
  | nil => intro a; simp
  | cons x l ih =>
      intro a
      simp only [List.foldl_cons]
      exact le_trans (le_max_left a x.2.days) (ih _)

lemma foldl_maxdays_ge_mem :
    ∀ (l : List (String × DevEstimate)) (a : ℤ) (p : String × DevEstimate),
      p ∈ l → p.2.days ≤ l.foldl (fun m e => max m e.2.days) a := by
  intro l
  induction l with
  | nil => intro a p hp; exact absurd hp (List.not_mem_nil p)
  | cons x l ih =>
      intro a p hp
      simp only [List.foldl_cons]
      rcases List.mem_cons.mp hp with rfl | hp
      · exact le_trans (le_max_right a p.2.days) (foldl_maxdays_le_init l _)
      · exact ih _ p hp

/-- C10: with positive capacities and effort units produced by
`roundUpToFib`, every breakdown entry has at least 1 point and 1 day;
the total days is at least 1 when some task matches a developer, and is
never negative. -/
theorem parallel_positivity (tasks : List Task) (developers : List Developer)
    (today : ℤ)
    (hcap : ∀ d ∈ developers, 0 < d.capacity)
    (hfib : ∀ t ∈ tasks, ∃ q : ℚ, t.fibonacciEstimate = roundUpToFib q) :
    (∀ p ∈ (calculateParallelEstimate tasks developers today).breakdown,
      1 ≤ p.2.points ∧ 1 ≤ p.2.days) ∧
    ((∃ t ∈ tasks, developers.any (fun d => d.id = t.assignedTo) = true) →
      1 ≤ (calculateParallelEstimate tasks developers today).totalDays) ∧
    0 ≤ (calculateParallelEstimate tasks developers today).totalDays := by
  have hpos : ∀ t ∈ tasks, 1 ≤ t.fibonacciEstimate := by
    intro t ht
    rcases hfib t ht with ⟨q, hq⟩
    rw [hq]
    exact roundUpToFib_ge_one q
  have hentry : ∀ p ∈ (calculateParallelEstimate tasks developers today).breakdown,
      1 ≤ p.2.points ∧ 1 ≤ p.2.days := by
    intro p hp
    rcases mem_breakdown_iff.mp hp with ⟨hk, he⟩
    unfold keyEntry entryOfGroup at he
    cases hf : developers.find? (fun d => d.id = p.1) <;> rw [hf] at he
    · exact absurd he (by simp)
    · rename_i dev
      simp only [Option.some.injEq] at he
      have hdev : dev ∈ developers := List.mem_of_find?_eq_some hf
      rcases (mem_keysOf tasks p.1).mp hk with ⟨t, ht, hta⟩
      have htf : t ∈ tasks.filter (fun u => u.assignedTo = p.1) :=
        List.mem_filter.mpr ⟨ht, by simp [hta]⟩
      have hfsum : t.fibonacciEstimate
          ≤ devPoints (tasks.filter (fun u => u.assignedTo = p.1)) := by
        rw [devPoints_eq]
        exact List.single_le_sum (fun x _ => Nat.zero_le x) _
          (List.mem_map.mpr ⟨t, htf, rfl⟩)
      have hpts : 1 ≤ devPoints (tasks.filter (fun u => u.assignedTo = p.1)) :=
        le_trans (hpos t ht) hfsum
      have hdays : (1 : ℤ)
          ≤ ⌈(devPoints (tasks.filter (fun u => u.assignedTo = p.1)) : ℚ)
              / dev.capacity⌉ := by
        have hq : (0 : ℚ)
            < (devPoints (tasks.filter (fun u => u.assignedTo = p.1)) : ℚ)
              / dev.capacity := by
          apply div_pos
          · exact_mod_cast hpts
          · exact hcap dev hdev
        have := Int.ceil_pos.mpr hq
        omega
      rw [← he]
      exact ⟨hpts, hdays⟩
  refine ⟨hentry, ?_, ?_⟩
  · rintro ⟨t, ht, hany⟩
    rw [any_id_eq_isSome] at hany
    rcases Option.isSome_iff_exists.mp hany with ⟨dev, hdev⟩
    have hk : t.assignedTo ∈ keysOf tasks :=
      (mem_keysOf tasks t.assignedTo).mpr ⟨t, ht, rfl⟩
    cases he : keyEntry tasks developers t.assignedTo with
    | none =>
        unfold keyEntry entryOfGroup at he
        rw [hdev] at he
        exact absurd he (by simp)
    | some e =>
        have hfst := keyEntry_fst he
        have hmem : e ∈ (calculateParallelEstimate tasks developers today).breakdown :=
          mem_breakdown_iff.mpr ⟨by rw [hfst]; exact hk, by rw [hfst]; exact he⟩
        have hdays1 := (hentry e hmem).2
        rw [totalDays_eq_foldl]
        exact le_trans hdays1 (foldl_maxdays_ge_mem _ 0 e hmem)
  · rw [totalDays_eq_foldl]
    exact foldl_maxdays_le_init _ 0

/-- Witness for `parallel_positivity` on one matched and one orphan task. -/
theorem parallel_positivity_witness :
    ((∀ d ∈ [sampleDev, otherDev], 0 < d.capacity) ∧
     (∀ t ∈ [sampleTask, orphanTask], ∃ q : ℚ, t.fibonacciEstimate = roundUpToFib q)) ∧
    ((∀ p ∈ (calculateParallelEstimate [sampleTask, orphanTask] [sampleDev, otherDev] 0).breakdown,
      1 ≤ p.2.points ∧ 1 ≤ p.2.days) ∧
    ((∃ t ∈ [sampleTask, orphanTask],
        [sampleDev, otherDev].any (fun d => d.id = t.assignedTo) = true) →
      1 ≤ (calculateParallelEstimate [sampleTask, orphanTask] [sampleDev, otherDev] 0).totalDays) ∧
    0 ≤ (calculateParallelEstimate [sampleTask, orphanTask] [sampleDev, otherDev] 0).totalDays) := by
  have hcap : ∀ d ∈ [sampleDev, otherDev], 0 < d.capacity := by
    intro d hd
    rcases List.mem_cons.mp hd with rfl | hd
    · norm_num [sampleDev]
    · rcases List.mem_cons.mp hd with rfl | hd
      · norm_num [otherDev]
      · exact absurd hd (List.not_mem_nil d)
  have hfib : ∀ t ∈ [sampleTask, orphanTask],
      ∃ q : ℚ, t.fibonacciEstimate = roundUpToFib q := by
    intro t ht
    rcases List.mem_cons.mp ht with rfl | ht
    · exact ⟨4, by rw [roundUpToFib_piecewise]; norm_num [sampleTask]⟩
    · rcases List.mem_cons.mp ht with rfl | ht
      · exact ⟨3, by rw [roundUpToFib_piecewise]; norm_num [orphanTask]⟩
      · exact absurd ht (List.not_mem_nil t)
  exact ⟨⟨hcap, hfib⟩, parallel_positivity [sampleTask, orphanTask]
    [sampleDev, otherDev] 0 hcap hfib⟩

end Estimator
